import Mathlib

/-!
Shallow embedding of the muskox checkers `Action` module (`src/action.rs`).

The Rust source packs one checkers move into a `u32`:
source: bits 0-4, destination: bits 5-9, jump length: bits 10-14,
jump directions: 8 two-bit slots starting at bit 15, one unused bit.

Machine integers are modelled as `Nat`; the `u8` subtraction `x - 1`
performed on every input position wraps modulo 256 (release-profile
semantics), which we model explicitly with `sub1`; the debug-profile
overflow panic is modelled separately by `convertPositionsChecked`.
All constructed packed words are below `2 ^ 31`, so no `u32` arithmetic
in the source ever wraps and plain `Nat` arithmetic is exact.
-/

namespace Muskox

/-- The four diagonal movement directions, in the declaration order of the
Rust `enum Direction` (src/action.rs lines 9-15). -/
inductive Direction where
  | UpLeft
  | UpRight
  | DownLeft
  | DownRight
  deriving DecidableEq, Repr

/-- The numeric discriminant of a `Direction`, as used by the Rust cast
`direction as u32` (src/action.rs line 78): declaration order 0,1,2,3. -/
def Direction.code : Direction → Nat
  | .UpLeft => 0
  | .UpRight => 1
  | .DownLeft => 2
  | .DownRight => 3

/-- The two kinds of checkers actions (Rust `enum ActionType`,
src/action.rs lines 18-22). -/
inductive ActionType where
  | Move
  | Jump
  deriving DecidableEq, Repr

/-- Modelled from the spec: `ParseActionError` lives in the crate module
`error`, which is not part of the `action.rs` source; spec section 7 fixes
its two recoverable variants, and the construction sites in `action.rs`
fix the payloads: a position-value error carrying the offending value as a
string (`pos.to_string()`), and a move-quantity error carrying the element
count (`positions.len()`). -/
inductive ParseActionError where
  | PositionValueError (position : String)
  | MoveQuantityError (quantity : Nat)
  deriving DecidableEq, Repr

/-- `Action` is a newtype over the packed 32-bit word
(Rust `pub struct Action(u32)`, src/action.rs line 26). -/
structure Action where
  data : Nat
  deriving DecidableEq, Repr

instance {ε α : Type} [DecidableEq ε] [DecidableEq α] : DecidableEq (Except ε α) := fun x y =>
  match x, y with
  | Except.ok a, Except.ok b =>
    if h : a = b then isTrue (by rw [h]) else isFalse (by simp [h])
  | Except.error a, Except.error b =>
    if h : a = b then isTrue (by rw [h]) else isFalse (by simp [h])
  | Except.ok _, Except.error _ => isFalse (by simp)
  | Except.error _, Except.ok _ => isFalse (by simp)

/-- The `u8` subtraction `x - 1` applied to every input position
(src/action.rs line 43) under wrapping (release) semantics. -/
def sub1 (x : Nat) : Nat := (x + 255) % 256

/-- Under the default debug profile Rust panics on `u8` subtract overflow,
so `positions.iter().map(|x| x - 1).collect()` (src/action.rs line 43)
panics as soon as any element is `0`; `none` models that panic. -/
def convertPositionsChecked (positions : List Nat) : Option (List Nat) :=
  positions.mapM (fun x => if x = 0 then none else some (x - 1))

/-- The delta-to-direction table of the jump-encoding loop
(src/action.rs lines 69-75): `-9, -7, 7, 9` map to the four directions,
anything else is a non-adjacent leap. -/
def jumpDirOfDiff (diff : Int) : Option Direction :=
  if diff = -9 then some Direction.UpLeft
  else if diff = -7 then some Direction.UpRight
  else if diff = 7 then some Direction.DownLeft
  else if diff = 9 then some Direction.DownRight
  else none

/-- The jump-encoding loop of `new_from_vector` (src/action.rs lines
67-79): at loop index `i` the delta `positions[i+1] - positions[i]` is
mapped through `jumpDirOfDiff`; a failed match reports `positions[i]`,
otherwise the direction code is ORed into the word at bit `i * 2 + 15`.
The returned word collects exactly the bits the loop ORs into `data`. -/
def encodeJumps : List Nat → Nat → Except ParseActionError Nat
  | p0 :: p1 :: rest, i =>
    match jumpDirOfDiff ((p1 : Int) - (p0 : Int)) with
    | some direction =>
      match encodeJumps (p1 :: rest) (i + 1) with
      | Except.ok restBits =>
        Except.ok ((direction.code <<< (i * 2 + 15)) ||| restBits)
      | Except.error e => Except.error e
    | none =>
      Except.error (ParseActionError.PositionValueError (toString p0))
  | _, _ => Except.ok 0

/-- The classification condition of src/action.rs line 64, on the already
converted (0-based) position list: the action has jumps when there are
more than two positions or the endpoint distance is not 3, 4 or 5. -/
def classifiesAsJump (positions : List Nat) : Prop :=
  2 < positions.length ∨
    (max (positions.headD 0) (positions.getLastD 0) -
        min (positions.headD 0) (positions.getLastD 0) ≠ 3 ∧
      max (positions.headD 0) (positions.getLastD 0) -
        min (positions.headD 0) (positions.getLastD 0) ≠ 4 ∧
      max (positions.headD 0) (positions.getLastD 0) -
        min (positions.headD 0) (positions.getLastD 0) ≠ 5)

instance (positions : List Nat) : Decidable (classifiesAsJump positions) := by
  unfold classifiesAsJump
  infer_instance

/-- `Action::new_from_vector` (src/action.rs lines 42-83).  Every input
position is decremented (`sub1`), then the first out-of-range converted
index is rejected, then the length window `[2, 9]` is enforced; a word is
assembled from source and destination, and, when the sequence classifies
as a jump, the jump length and the per-leap direction bits. -/
def Action.new_from_vector (positions : List Nat) : Except ParseActionError Action :=
  let positions := positions.map sub1
  match positions.find? (fun x => 31 < x) with
  | some pos =>
    Except.error (ParseActionError.PositionValueError (toString pos))
  | none =>
    if positions.length < 2 ∨ 9 < positions.length then
      Except.error (ParseActionError.MoveQuantityError positions.length)
    else
      let source := positions.headD 0
      let destination := positions.getLastD 0
      let data := source ||| (destination <<< 5)
      if classifiesAsJump positions then
        match encodeJumps positions 0 with
        | Except.ok jumpBits =>
          Except.ok ⟨(data ||| ((positions.length - 1) <<< 10)) ||| jumpBits⟩
        | Except.error e => Except.error e
      else
        Except.ok ⟨data⟩

/-- Rust `str::split("-")` for the one-character separator `-`
(src/action.rs line 101), written over the character list: splits at every
hyphen, keeping empty tokens, so that the token count is one more than the
hyphen count. `acc` holds the current token's characters in reverse. -/
def splitDash : List Char → List Char → List String
  | [], acc => [String.mk acc.reverse]
  | c :: cs, acc =>
    if c = '-' then String.mk acc.reverse :: splitDash cs []
    else splitDash cs (c :: acc)

/-- Modelled from the spec (and the Rust standard library): `u8::from_str`
as invoked by `x.parse::<u8>()` (src/action.rs line 102) accepts an
optional leading `+` followed by one or more ASCII digits whose value fits
in eight bits; everything else (empty token, stray characters, overflow)
fails. -/
def parseU8 (s : String) : Option Nat :=
  let digits :=
    match s.data with
    | '+' :: rest => rest
    | cs => cs
  if digits.isEmpty then none
  else if digits.all (fun c => c.isDigit) then
    let v := digits.foldl (fun acc c => acc * 10 + (c.toNat - 48)) 0
    if v < 256 then some v else none
  else none

/-- The `collect::<Result<Vec<u8>, ParseActionError>>()` over the parsed
tokens (src/action.rs lines 101-104): the first token that fails
`parse::<u8>()` aborts the collection with a position-value error carrying
that token verbatim. -/
def collectPositions : List String → Except ParseActionError (List Nat)
  | [] => Except.ok []
  | x :: xs =>
    match parseU8 x with
    | some v =>
      match collectPositions xs with
      | Except.ok vs => Except.ok (v :: vs)
      | Except.error e => Except.error e
    | none => Except.error (ParseActionError.PositionValueError x)

/-- `Action::new_from_movetext` (src/action.rs lines 100-107): split the
movetext on `-`, parse every token as `u8`, and hand the sequence to
`new_from_vector`. -/
def Action.new_from_movetext (movetext : String) : Except ParseActionError Action :=
  match collectPositions (splitDash movetext.data []) with
  | Except.ok positions => Action.new_from_vector positions
  | Except.error e => Except.error e

/-- `Action::source` (src/action.rs lines 111-113): the low five bits. -/
def Action.source (a : Action) : Nat := a.data &&& 31

/-- `Action::destination` (src/action.rs lines 117-119): bits 5-9. -/
def Action.destination (a : Action) : Nat := (a.data >>> 5) &&& 31

/-- `Action::jump_len` (src/action.rs lines 123-125): bits 10-13. -/
def Action.jump_len (a : Action) : Nat := (a.data >>> 10) &&& 15

/-- The decoding of a masked two-bit direction code, modelling the Rust
`unsafe { mem::transmute(val as u8) }` (src/action.rs line 143) through
the declaration-order discriminants of `Direction`; the argument is
already masked to `val < 4`, so the catch-all branch is only ever reached
at `3`. -/
def decodeDirection : Nat → Direction
  | 0 => Direction.UpLeft
  | 1 => Direction.UpRight
  | 2 => Direction.DownLeft
  | _ => Direction.DownRight

/-- `Action::jump_direction` (src/action.rs lines 137-144): `none` for an
index at or past the jump length, otherwise the two-bit slot at bit
`i * 2 + 15` decoded as a `Direction`. -/
def Action.jump_direction (a : Action) (i : Nat) : Option Direction :=
  if a.jump_len ≤ i then none
  else some (decodeDirection ((a.data >>> (i * 2 + 15)) &&& 3))

/-- `Action::action_type` (src/action.rs lines 148-153). -/
def Action.action_type (a : Action) : ActionType :=
  match a.jump_len with
  | 0 => ActionType.Move
  | _ => ActionType.Jump

/-- `Action::move_direction` (src/action.rs lines 161-190): `none` for a
jump; otherwise the destination-minus-source delta is looked up in the
even-row or odd-row neighbour table depending on the source row parity. -/
def Action.move_direction (a : Action) : Option Direction :=
  if a.action_type = ActionType.Jump then none
  else
    let source := a.source
    let destination := a.destination
    let diff : Int := (destination : Int) - (source : Int)
    if source / 4 % 2 = 0 then
      if diff = -4 then some Direction.UpLeft
      else if diff = -3 then some Direction.UpRight
      else if diff = 4 then some Direction.DownLeft
      else if diff = 5 then some Direction.DownRight
      else none
    else
      if diff = -5 then some Direction.UpLeft
      else if diff = -4 then some Direction.UpRight
      else if diff = 3 then some Direction.DownLeft
      else if diff = 4 then some Direction.DownRight
      else none

/-- Modelled from the spec: the even-row and odd-row diff tables of spec
section 4.4, stated independently of the code so the geometry accessor can
be compared against them. -/
def moveDirTable (evenRow : Bool) (diff : Int) : Option Direction :=
  if evenRow then
    if diff = -4 then some Direction.UpLeft
    else if diff = -3 then some Direction.UpRight
    else if diff = 4 then some Direction.DownLeft
    else if diff = 5 then some Direction.DownRight
    else none
  else
    if diff = -5 then some Direction.UpLeft
    else if diff = -4 then some Direction.UpRight
    else if diff = 3 then some Direction.DownLeft
    else if diff = 4 then some Direction.DownRight
    else none

/-! ## Bit-level helper lemmas -/

theorem Direction.code_lt (d : Direction) : d.code < 4 := by
  cases d <;> simp [Direction.code]

theorem decodeDirection_code (d : Direction) : decodeDirection d.code = d := by
  cases d <;> rfl

theorem and_31_eq (n : Nat) : n &&& 31 = n % 32 := by
  have h := Nat.and_pow_two_sub_one_eq_mod n 5
  norm_num at h
  exact h

theorem and_15_eq (n : Nat) : n &&& 15 = n % 16 := by
  have h := Nat.and_pow_two_sub_one_eq_mod n 4
  norm_num at h
  exact h

theorem and_3_eq (n : Nat) : n &&& 3 = n % 4 := by
  have h := Nat.and_pow_two_sub_one_eq_mod n 2
  norm_num at h
  exact h

/-- Disjoint bitwise OR is addition: ORing a value below `2 ^ k` with a
multiple of `2 ^ k` adds them. -/
theorem lor_two_pow_mul {a : Nat} (b k : Nat) (h : a < 2 ^ k) :
    a ||| 2 ^ k * b = 2 ^ k * b + a := by
  apply Nat.eq_of_testBit_eq
  intro j
  rw [Nat.testBit_lor, Nat.testBit_mul_pow_two_add b h j]
  by_cases hj : j < k
  · simp only [if_pos hj]
    have hb : (2 ^ k * b).testBit j = false := by
      rw [Nat.testBit_mul_pow_two]
      simp [Nat.not_le.mpr hj]
    simp [hb]
  · have ha : a.testBit j = false := by
      apply Nat.testBit_lt_two_pow
      exact lt_of_lt_of_le h (Nat.pow_le_pow_right (by norm_num) (Nat.not_lt.mp hj))
    rw [Nat.testBit_mul_pow_two]
    simp [ha, if_neg hj, Nat.not_lt.mp hj]

/-- The packed move word assembled by `new_from_vector`
(`data | destination << 5 | (len - 1) << 10 | jumpBits`)
equals the additive radix decomposition of its four fields. -/
theorem pack_word (q0 q1 L C : Nat) (h0 : q0 < 32) (h1 : q1 < 32) (hL : L < 16) :
    ((q0 ||| q1 <<< 5) ||| L <<< 10) ||| 2 ^ 15 * C =
      q0 + 32 * q1 + 1024 * L + 32768 * C := by
  rw [Nat.shiftLeft_eq, Nat.shiftLeft_eq]
  have e1 : q1 * 2 ^ 5 = 2 ^ 5 * q1 := Nat.mul_comm _ _
  have e2 : L * 2 ^ 10 = 2 ^ 10 * L := Nat.mul_comm _ _
  rw [e1, lor_two_pow_mul q1 5 (by omega), e2,
    lor_two_pow_mul L 10 (by omega),
    lor_two_pow_mul C 15 (by omega)]
  norm_num
  omega

theorem source_pack (q0 q1 L C : Nat) (h0 : q0 < 32) :
    Action.source ⟨q0 + 32 * q1 + 1024 * L + 32768 * C⟩ = q0 := by
  simp only [Action.source, and_31_eq]
  omega

theorem destination_pack (q0 q1 L C : Nat) (h0 : q0 < 32) (h1 : q1 < 32) :
    Action.destination ⟨q0 + 32 * q1 + 1024 * L + 32768 * C⟩ = q1 := by
  simp only [Action.destination, Nat.shiftRight_eq_div_pow, and_31_eq]
  norm_num
  omega

theorem jump_len_pack (q0 q1 L C : Nat) (h0 : q0 < 32) (h1 : q1 < 32) (hL : L < 16) :
    Action.jump_len ⟨q0 + 32 * q1 + 1024 * L + 32768 * C⟩ = L := by
  simp only [Action.jump_len, Nat.shiftRight_eq_div_pow, and_15_eq]
  norm_num
  omega

/-- Reading the two-bit slot `i` of the packed word extracts the `i`-th
base-4 digit of the direction payload `C`. -/
theorem slot_pack (q0 q1 L C i : Nat) (h0 : q0 < 32) (h1 : q1 < 32) (hL : L < 16) :
    ((q0 + 32 * q1 + 1024 * L + 32768 * C) >>> (i * 2 + 15)) &&& 3 =
      C / 4 ^ i % 4 := by
  rw [Nat.shiftRight_eq_div_pow, and_3_eq]
  have e1 : 2 ^ (i * 2 + 15) = 2 ^ (i * 2) * 2 ^ 15 := by
    rw [Nat.pow_add]
  have e2 : (q0 + 32 * q1 + 1024 * L + 32768 * C) / 2 ^ (i * 2) / 2 ^ 15 =
      (q0 + 32 * q1 + 1024 * L + 32768 * C) / (2 ^ (i * 2) * 2 ^ 15) :=
    Nat.div_div_eq_div_mul _ _ _
  have e3 : (q0 + 32 * q1 + 1024 * L + 32768 * C) / 2 ^ 15 / 2 ^ (i * 2) =
      (q0 + 32 * q1 + 1024 * L + 32768 * C) / (2 ^ 15 * 2 ^ (i * 2)) :=
    Nat.div_div_eq_div_mul _ _ _
  rw [e1, ← Nat.mul_comm (2 ^ 15) (2 ^ (i * 2)), ← e3]
  have e4 : (q0 + 32 * q1 + 1024 * L + 32768 * C) / 2 ^ 15 = C := by
    norm_num
    omega
  rw [e4]
  congr 1
  rw [Nat.mul_comm i 2, Nat.pow_mul]

/-! ## List and conversion helper lemmas -/

theorem sub1_eq_of_le {x : Nat} (h1 : 1 ≤ x) (h2 : x ≤ 256) : sub1 x = x - 1 := by
  unfold sub1
  omega

theorem headD_mem {l : List Nat} (h : l ≠ []) : l.headD 0 ∈ l := by
  cases l with
  | nil => exact absurd rfl h
  | cons a t => exact List.mem_cons_self a t

theorem getLastD_mem {l : List Nat} (h : l ≠ []) : l.getLastD 0 ∈ l := by
  cases l with
  | nil => exact absurd rfl h
  | cons a t =>
    rw [List.getLastD_eq_getLast?, List.getLast?_eq_getLast _ (by simp)]
    exact List.getLast_mem _

theorem headD_map (f : Nat → Nat) (l : List Nat) (h : l ≠ []) :
    (l.map f).headD 0 = f (l.headD 0) := by
  cases l with
  | nil => exact absurd rfl h
  | cons a t => rfl

theorem getLastD_map (f : Nat → Nat) (l : List Nat) (h : l ≠ []) :
    (l.map f).getLastD 0 = f (l.getLastD 0) := by
  induction l with
  | nil => exact absurd rfl h
  | cons a t ih =>
    cases t with
    | nil => rfl
    | cons b t2 =>
      simp only [List.map_cons, List.getLastD_cons] at *
      exact ih (by simp)

/-! ## Characterization of the jump-encoding loop -/

/-- A successful run of the jump-encoding loop starting at slot `k`
produces exactly the direction payload shifted to bit `k * 2 + 15`. -/
theorem encodeJumps_shape (ps : List Nat) (k bits : Nat)
    (h : encodeJumps ps k = Except.ok bits) :
    ∃ C, bits = 2 ^ (k * 2 + 15) * C ∧ C < 4 ^ (ps.length - 1) := by
  induction ps generalizing k bits with
  | nil =>
    simp only [encodeJumps, Except.ok.injEq] at h
    exact ⟨0, by omega, by norm_num⟩
  | cons a t ih =>
    cases t with
    | nil =>
      simp only [encodeJumps, Except.ok.injEq] at h
      exact ⟨0, by omega, by norm_num⟩
    | cons b t2 =>
      simp only [encodeJumps] at h
      cases hd : jumpDirOfDiff ((b : Int) - (a : Int)) with
      | none => simp [hd] at h
      | some d =>
        rw [hd] at h
        cases hr : encodeJumps (b :: t2) (k + 1) with
        | error e => rw [hr] at h; exact absurd h (by simp)
        | ok restBits =>
          rw [hr] at h
          obtain ⟨C, hC1, hC2⟩ := ih (k + 1) restBits hr
          refine ⟨d.code + 4 * C, ?_, ?_⟩
          · have hbits : (d.code <<< (k * 2 + 15)) ||| restBits = bits := by
              simpa using h
            have hs : (k + 1) * 2 + 15 = (k * 2 + 15) + 2 := by omega
            have hcode := Direction.code_lt d
            rw [← hbits, hC1, hs, Nat.shiftLeft_eq]
            have hlt : d.code * 2 ^ (k * 2 + 15) < 2 ^ (k * 2 + 15 + 2) := by
              have e2 : 2 ^ (k * 2 + 15 + 2) = 4 * 2 ^ (k * 2 + 15) := by ring
              rw [e2]
              exact mul_lt_mul_of_pos_right hcode (Nat.two_pow_pos _)
            rw [lor_two_pow_mul C (k * 2 + 15 + 2) hlt]
            ring
          · have hlen : (a :: b :: t2).length - 1 = t2.length + 1 := by simp
            have hlen2 : (b :: t2).length - 1 = t2.length := by simp
            rw [hlen]
            rw [hlen2] at hC2
            have hcode := Direction.code_lt d
            have hp : 4 ^ (t2.length + 1) = 4 ^ t2.length * 4 := Nat.pow_succ 4 _
            omega

/-- When every consecutive delta is a legal leap, the jump-encoding loop
succeeds and stores the decoded direction of delta `i` in base-4 digit `i`
of the payload. -/
theorem encodeJumps_ok (ps : List Nat) (k : Nat)
    (h : ∀ i, i + 1 < ps.length →
      (jumpDirOfDiff ((ps.getD (i + 1) 0 : Int) - (ps.getD i 0 : Int))).isSome = true) :
    ∃ C, encodeJumps ps k = Except.ok (2 ^ (k * 2 + 15) * C) ∧
      C < 4 ^ (ps.length - 1) ∧
      ∀ i, i + 1 < ps.length →
        some (decodeDirection (C / 4 ^ i % 4)) =
          jumpDirOfDiff ((ps.getD (i + 1) 0 : Int) - (ps.getD i 0 : Int)) := by
  induction ps generalizing k with
  | nil =>
    exact ⟨0, by simp [encodeJumps], by norm_num, by intro i hi; simp at hi⟩
  | cons a t ih =>
    cases t with
    | nil =>
      refine ⟨0, by simp [encodeJumps], by norm_num, ?_⟩
      intro i hi
      simp at hi
    | cons b t2 =>
      have h0 := h 0 (by simp)
      simp only [List.getD_cons_succ, List.getD_cons_zero] at h0
      cases hd : jumpDirOfDiff ((b : Int) - (a : Int)) with
      | none => rw [hd] at h0; simp at h0
      | some d =>
        have ht : ∀ i, i + 1 < (b :: t2).length →
            (jumpDirOfDiff (((b :: t2).getD (i + 1) 0 : Int) -
              ((b :: t2).getD i 0 : Int))).isSome = true := by
          intro i hi
          have := h (i + 1) (by simp at hi ⊢; omega)
          simpa using this
        obtain ⟨C, hC1, hC2, hC3⟩ := ih (k + 1) ht
        have hcode := Direction.code_lt d
        refine ⟨d.code + 4 * C, ?_, ?_, ?_⟩
        · simp only [encodeJumps, hd, hC1]
          congr 1
          have hs : (k + 1) * 2 + 15 = (k * 2 + 15) + 2 := by omega
          rw [hs, Nat.shiftLeft_eq]
          have hlt : d.code * 2 ^ (k * 2 + 15) < 2 ^ (k * 2 + 15 + 2) := by
            have e2 : 2 ^ (k * 2 + 15 + 2) = 4 * 2 ^ (k * 2 + 15) := by ring
            rw [e2]
            exact mul_lt_mul_of_pos_right hcode (Nat.two_pow_pos _)
          rw [lor_two_pow_mul C (k * 2 + 15 + 2) hlt]
          ring
        · have hlen : (a :: b :: t2).length - 1 = t2.length + 1 := by simp
          have hlen2 : (b :: t2).length - 1 = t2.length := by simp
          rw [hlen]
          rw [hlen2] at hC2
          have hp : 4 ^ (t2.length + 1) = 4 ^ t2.length * 4 := Nat.pow_succ 4 _
          omega
        · intro i hi
          cases i with
          | zero =>
            simp only [List.getD_cons_succ, List.getD_cons_zero, hd]
            have e1 : (d.code + 4 * C) / 4 ^ 0 % 4 = d.code := by
              norm_num
              omega
            rw [e1, decodeDirection_code]
          | succ j =>
            have hj := hC3 j (by simp at hi ⊢; omega)
            have e1 : (d.code + 4 * C) / 4 ^ (j + 1) % 4 = C / 4 ^ j % 4 := by
              have e2 : 4 ^ (j + 1) = 4 * 4 ^ j := by
                rw [Nat.pow_succ]
                ring
              rw [e2, ← Nat.div_div_eq_div_mul]
              have e3 : (d.code + 4 * C) / 4 = C := by omega
              rw [e3]
            simp only [List.getD_cons_succ]
            rw [e1]
            simpa using hj

/-! ## Branch evaluation lemmas for the encoder -/

theorem nfv_find_some (P : List Nat) (pos : Nat)
    (h : (P.map sub1).find? (fun x => 31 < x) = some pos) :
    Action.new_from_vector P =
      Except.error (ParseActionError.PositionValueError (toString pos)) := by
  simp [Action.new_from_vector, h]

theorem nfv_len_err (P : List Nat)
    (hf : (P.map sub1).find? (fun x => 31 < x) = none)
    (h : P.length < 2 ∨ 9 < P.length) :
    Action.new_from_vector P =
      Except.error (ParseActionError.MoveQuantityError P.length) := by
  have h2 : (P.map sub1).length < 2 ∨ 9 < (P.map sub1).length := by simpa using h
  simp only [Action.new_from_vector, hf]
  rw [if_pos h2]
  simp

theorem nfv_move (P : List Nat)
    (hf : (P.map sub1).find? (fun x => 31 < x) = none)
    (hlen : ¬(P.length < 2 ∨ 9 < P.length))
    (hcl : ¬ classifiesAsJump (P.map sub1)) :
    Action.new_from_vector P =
      Except.ok ⟨(P.map sub1).headD 0 ||| (P.map sub1).getLastD 0 <<< 5⟩ := by
  have h2 : ¬((P.map sub1).length < 2 ∨ 9 < (P.map sub1).length) := by
    simpa using hlen
  simp only [Action.new_from_vector, hf]
  rw [if_neg h2, if_neg hcl]

theorem nfv_jump (P : List Nat)
    (hf : (P.map sub1).find? (fun x => 31 < x) = none)
    (hlen : ¬(P.length < 2 ∨ 9 < P.length))
    (hcl : classifiesAsJump (P.map sub1))
    (bits : Nat)
    (henc : encodeJumps (P.map sub1) 0 = Except.ok bits) :
    Action.new_from_vector P =
      Except.ok ⟨(((P.map sub1).headD 0 ||| (P.map sub1).getLastD 0 <<< 5) |||
        ((P.map sub1).length - 1) <<< 10) ||| bits⟩ := by
  have h2 : ¬((P.map sub1).length < 2 ∨ 9 < (P.map sub1).length) := by
    simpa using hlen
  simp only [Action.new_from_vector, hf]
  rw [if_neg h2, if_pos hcl, henc]

theorem nfv_jump_err (P : List Nat)
    (hf : (P.map sub1).find? (fun x => 31 < x) = none)
    (hlen : ¬(P.length < 2 ∨ 9 < P.length))
    (hcl : classifiesAsJump (P.map sub1))
    (e : ParseActionError)
    (henc : encodeJumps (P.map sub1) 0 = Except.error e) :
    Action.new_from_vector P = Except.error e := by
  have h2 : ¬((P.map sub1).length < 2 ∨ 9 < (P.map sub1).length) := by
    simpa using hlen
  simp only [Action.new_from_vector, hf]
  rw [if_neg h2, if_pos hcl, henc]

/-! ## Facts available on every accepted input -/

theorem range_facts (P : List Nat) (hval : ∀ x ∈ P, 1 ≤ x ∧ x ≤ 32) :
    (∀ q ∈ P.map sub1, q ≤ 31) ∧
      (P.map sub1).find? (fun x => 31 < x) = none := by
  have hrange : ∀ q ∈ P.map sub1, q ≤ 31 := by
    intro q hq
    obtain ⟨x, hx, rfl⟩ := List.mem_map.mp hq
    have hb := hval x hx
    rw [sub1_eq_of_le hb.1 (by omega)]
    omega
  refine ⟨hrange, ?_⟩
  rw [List.find?_eq_none]
  intro x hx
  simp only [decide_eq_true_eq]
  exact Nat.not_lt.mpr (hrange x hx)

/-- Central acceptance characterization: a sequence of in-range
1-based positions of length 2 to 9 whose deltas are legal leaps (when the
sequence classifies as a jump) is accepted, and every decoded field is
determined. -/
theorem new_from_vector_ok_char (P : List Nat)
    (hlen2 : 2 ≤ P.length) (hlen9 : P.length ≤ 9)
    (hval : ∀ x ∈ P, 1 ≤ x ∧ x ≤ 32)
    (hjump : classifiesAsJump (P.map sub1) → ∀ i, i < P.length - 1 →
      (jumpDirOfDiff (((P.map sub1).getD (i + 1) 0 : Int) -
        ((P.map sub1).getD i 0 : Int))).isSome = true) :
    ∃ a, Action.new_from_vector P = Except.ok a ∧
      a.source = (P.map sub1).headD 0 ∧
      a.destination = (P.map sub1).getLastD 0 ∧
      (¬ classifiesAsJump (P.map sub1) → a.jump_len = 0) ∧
      (classifiesAsJump (P.map sub1) →
        a.jump_len = P.length - 1 ∧
        ∀ i, i < P.length - 1 →
          a.jump_direction i =
            jumpDirOfDiff (((P.map sub1).getD (i + 1) 0 : Int) -
              ((P.map sub1).getD i 0 : Int))) := by
  have hPne : P ≠ [] := by
    intro h
    rw [h] at hlen2
    simp at hlen2
  have hqne : P.map sub1 ≠ [] := by simpa using hPne
  obtain ⟨hrange, hfind⟩ := range_facts P hval
  have hq0 : (P.map sub1).headD 0 < 32 := by
    have := hrange _ (headD_mem hqne)
    omega
  have hq1 : (P.map sub1).getLastD 0 < 32 := by
    have := hrange _ (getLastD_mem hqne)
    omega
  have hlen : (P.map sub1).length = P.length := by simp
  have hnl : ¬(P.length < 2 ∨ 9 < P.length) := by omega
  by_cases hcl : classifiesAsJump (P.map sub1)
  · obtain ⟨C, hC1, hC2, hC3⟩ := encodeJumps_ok (P.map sub1) 0 (by
      intro i hi
      rw [hlen] at hi
      exact hjump hcl i (by omega))
    have heval := nfv_jump P hfind hnl hcl _ hC1
    have hw : (((P.map sub1).headD 0 ||| (P.map sub1).getLastD 0 <<< 5) |||
        ((P.map sub1).length - 1) <<< 10) ||| 2 ^ (0 * 2 + 15) * C =
        (P.map sub1).headD 0 + 32 * (P.map sub1).getLastD 0 +
          1024 * (P.length - 1) + 32768 * C := by
      have e0 : (0 * 2 + 15) = 15 := by norm_num
      rw [e0, hlen, pack_word _ _ _ C hq0 hq1 (by omega)]
    have hjl : Action.jump_len ⟨(P.map sub1).headD 0 + 32 * (P.map sub1).getLastD 0 +
        1024 * (P.length - 1) + 32768 * C⟩ = P.length - 1 :=
      jump_len_pack _ _ _ _ hq0 hq1 (by omega)
    refine ⟨⟨(P.map sub1).headD 0 + 32 * (P.map sub1).getLastD 0 +
      1024 * (P.length - 1) + 32768 * C⟩, ?_, ?_, ?_, ?_, ?_⟩
    · rw [heval, hw]
    · exact source_pack _ _ _ _ hq0
    · exact destination_pack _ _ _ _ hq0 hq1
    · intro h
      exact absurd hcl h
    · intro _
      refine ⟨hjl, ?_⟩
      intro i hi
      unfold Action.jump_direction
      rw [if_neg (by rw [hjl]; omega)]
      rw [slot_pack _ _ _ _ i hq0 hq1 (by omega)]
      exact hC3 i (by omega)
  · have heval := nfv_move P hfind hnl hcl
    have hw : (P.map sub1).headD 0 ||| (P.map sub1).getLastD 0 <<< 5 =
        (P.map sub1).headD 0 + 32 * (P.map sub1).getLastD 0 := by
      have hp := pack_word ((P.map sub1).headD 0) ((P.map sub1).getLastD 0) 0 0
        hq0 hq1 (by norm_num)
      simpa using hp
    refine ⟨⟨(P.map sub1).headD 0 + 32 * (P.map sub1).getLastD 0⟩, ?_, ?_, ?_, ?_, ?_⟩
    · rw [heval, hw]
    · have := source_pack ((P.map sub1).headD 0) ((P.map sub1).getLastD 0) 0 0 hq0
      simpa using this
    · have := destination_pack ((P.map sub1).headD 0) ((P.map sub1).getLastD 0) 0 0 hq0 hq1
      simpa using this
    · intro _
      have := jump_len_pack ((P.map sub1).headD 0) ((P.map sub1).getLastD 0) 0 0
        hq0 hq1 (by norm_num)
      simpa using this
    · intro h
      exact absurd h hcl

/-- Inversion: every accepted input was in range and in the length
window, and the packed word of the result has one of the two field
layouts, depending on the classification. -/
theorem new_from_vector_ok_inv (P : List Nat) (a : Action)
    (h : Action.new_from_vector P = Except.ok a) :
    2 ≤ P.length ∧ P.length ≤ 9 ∧
      (∀ q ∈ P.map sub1, q ≤ 31) ∧
      ((¬ classifiesAsJump (P.map sub1) ∧
          a.data = (P.map sub1).headD 0 + 32 * (P.map sub1).getLastD 0) ∨
        (classifiesAsJump (P.map sub1) ∧
          ∃ C, C < 4 ^ (P.length - 1) ∧
            a.data = (P.map sub1).headD 0 + 32 * (P.map sub1).getLastD 0 +
              1024 * (P.length - 1) + 32768 * C)) := by
  cases hf : (P.map sub1).find? (fun x => 31 < x) with
  | some pos =>
    rw [nfv_find_some P pos hf] at h
    exact absurd h (by simp)
  | none =>
    have hrange : ∀ q ∈ P.map sub1, q ≤ 31 := by
      intro q hq
      have := List.find?_eq_none.mp hf q hq
      simp only [decide_eq_true_eq] at this
      omega
    by_cases hl : P.length < 2 ∨ 9 < P.length
    · rw [nfv_len_err P hf hl] at h
      exact absurd h (by simp)
    · have hlen2 : 2 ≤ P.length := by omega
      have hlen9 : P.length ≤ 9 := by omega
      have hPne : P ≠ [] := by
        intro he
        rw [he] at hlen2
        simp at hlen2
      have hqne : P.map sub1 ≠ [] := by simpa using hPne
      have hq0 : (P.map sub1).headD 0 < 32 := by
        have := hrange _ (headD_mem hqne)
        omega
      have hq1 : (P.map sub1).getLastD 0 < 32 := by
        have := hrange _ (getLastD_mem hqne)
        omega
      have hmlen : (P.map sub1).length = P.length := by simp
      refine ⟨hlen2, hlen9, hrange, ?_⟩
      by_cases hcl : classifiesAsJump (P.map sub1)
      · cases he : encodeJumps (P.map sub1) 0 with
        | error e =>
          rw [nfv_jump_err P hf hl hcl e he] at h
          exact absurd h (by simp)
        | ok bits =>
          rw [nfv_jump P hf hl hcl bits he] at h
          obtain ⟨C, hC1, hC2⟩ := encodeJumps_shape (P.map sub1) 0 bits he
          refine Or.inr ⟨hcl, C, by rw [hmlen] at hC2; exact hC2, ?_⟩
          have ha : a = ⟨(((P.map sub1).headD 0 ||| (P.map sub1).getLastD 0 <<< 5) |||
              ((P.map sub1).length - 1) <<< 10) ||| bits⟩ := by
            exact (Except.ok.injEq _ _).mp h.symm
          rw [ha]
          show (((P.map sub1).headD 0 ||| (P.map sub1).getLastD 0 <<< 5) |||
              ((P.map sub1).length - 1) <<< 10) ||| bits = _
          rw [hC1]
          have e0 : (0 * 2 + 15) = 15 := by norm_num
          rw [e0, hmlen, pack_word _ _ _ C hq0 hq1 (by omega)]
      · rw [nfv_move P hf hl hcl] at h
        have ha : a = ⟨(P.map sub1).headD 0 ||| (P.map sub1).getLastD 0 <<< 5⟩ :=
          (Except.ok.injEq _ _).mp h.symm
        refine Or.inl ⟨hcl, ?_⟩
        rw [ha]
        show (P.map sub1).headD 0 ||| (P.map sub1).getLastD 0 <<< 5 = _
        have hp := pack_word ((P.map sub1).headD 0) ((P.map sub1).getLastD 0) 0 0
          hq0 hq1 (by norm_num)
        simpa using hp

/-! ## Claim theorems -/

theorem action_type_move_iff (a : Action) :
    a.action_type = ActionType.Move ↔ a.jump_len = 0 := by
  unfold Action.action_type
  cases h : a.jump_len with
  | zero => simp
  | succ n => simp

theorem cl_two (p q : Nat) :
    classifiesAsJump [sub1 p, sub1 q] ↔
      ¬(max (sub1 p) (sub1 q) - min (sub1 p) (sub1 q) = 3 ∨
        max (sub1 p) (sub1 q) - min (sub1 p) (sub1 q) = 4 ∨
        max (sub1 p) (sub1 q) - min (sub1 p) (sub1 q) = 5) := by
  unfold classifiesAsJump
  simp only [List.length_cons, List.length_nil, List.headD_cons, List.getLastD_cons,
    List.getLastD_nil]
  omega

/-- C1: Round-trip.  For every 1-based position sequence of length 2 to 9
with values in [1, 32] whose consecutive 0-based deltas (when the
sequence classifies as a jump) are legal leaps, `new_from_vector`
succeeds, `source` is the first position minus one, `destination` is the
last position minus one, and, when classified as a jump, `jump_len` is
the sequence length minus one and `jump_direction i` is the direction of
the `i`-th delta under the mapping on -9, -7, 7, 9. -/
theorem C1_round_trip (P : List Nat)
    (hlen2 : 2 ≤ P.length) (hlen9 : P.length ≤ 9)
    (hval : ∀ x ∈ P, 1 ≤ x ∧ x ≤ 32)
    (hjump : classifiesAsJump (P.map sub1) → ∀ i, i < P.length - 1 →
      (jumpDirOfDiff (((P.map sub1).getD (i + 1) 0 : Int) -
        ((P.map sub1).getD i 0 : Int))).isSome = true) :
    ∃ a, Action.new_from_vector P = Except.ok a ∧
      a.source = P.headD 0 - 1 ∧
      a.destination = P.getLastD 0 - 1 ∧
      (classifiesAsJump (P.map sub1) →
        a.jump_len = P.length - 1 ∧
        ∀ i, i < P.length - 1 →
          a.jump_direction i =
            jumpDirOfDiff (((P.map sub1).getD (i + 1) 0 : Int) -
              ((P.map sub1).getD i 0 : Int))) := by
  obtain ⟨a, h1, h2, h3, h4, h5⟩ := new_from_vector_ok_char P hlen2 hlen9 hval hjump
  have hPne : P ≠ [] := by
    intro he
    rw [he] at hlen2
    simp at hlen2
  have hh : (P.map sub1).headD 0 = P.headD 0 - 1 := by
    rw [headD_map sub1 P hPne]
    have hbm := hval _ (headD_mem hPne)
    exact sub1_eq_of_le hbm.1 (by omega)
  have hg : (P.map sub1).getLastD 0 = P.getLastD 0 - 1 := by
    rw [getLastD_map sub1 P hPne]
    have hbm := hval _ (getLastD_mem hPne)
    exact sub1_eq_of_le hbm.1 (by omega)
  exact ⟨a, h1, by rw [h2, hh], by rw [h3, hg], h5⟩

/-- Witness for C1 at the concrete jump sequence 1-10-17. -/
theorem C1_round_trip_witness :
    ∃ a, Action.new_from_vector [1, 10, 17] = Except.ok a ∧
      a.source = [1, 10, 17].headD 0 - 1 ∧
      a.destination = [1, 10, 17].getLastD 0 - 1 ∧
      (classifiesAsJump ([1, 10, 17].map sub1) →
        a.jump_len = [1, 10, 17].length - 1 ∧
        ∀ i, i < [1, 10, 17].length - 1 →
          a.jump_direction i =
            jumpDirOfDiff ((([1, 10, 17].map sub1).getD (i + 1) 0 : Int) -
              (([1, 10, 17].map sub1).getD i 0 : Int))) :=
  C1_round_trip [1, 10, 17] (by norm_num) (by norm_num) (by decide) (by decide)

/-- C2: Classification.  A two-element sequence accepted with 0-based
endpoint distance 3, 4 or 5 yields `jump_len = 0` and type `Move`; any
other accepted two-element sequence, and every accepted longer sequence,
yields type `Jump` with positive `jump_len`; and for every action the
type is `Move` exactly when `jump_len` is zero. -/
theorem C2_classification :
    (∀ (p q : Nat) (a : Action), Action.new_from_vector [p, q] = Except.ok a →
      (max (sub1 p) (sub1 q) - min (sub1 p) (sub1 q) = 3 ∨
        max (sub1 p) (sub1 q) - min (sub1 p) (sub1 q) = 4 ∨
        max (sub1 p) (sub1 q) - min (sub1 p) (sub1 q) = 5) →
      a.jump_len = 0 ∧ a.action_type = ActionType.Move) ∧
    (∀ (p q : Nat) (a : Action), Action.new_from_vector [p, q] = Except.ok a →
      ¬(max (sub1 p) (sub1 q) - min (sub1 p) (sub1 q) = 3 ∨
        max (sub1 p) (sub1 q) - min (sub1 p) (sub1 q) = 4 ∨
        max (sub1 p) (sub1 q) - min (sub1 p) (sub1 q) = 5) →
      a.action_type = ActionType.Jump ∧ 0 < a.jump_len) ∧
    (∀ (P : List Nat) (a : Action), 2 < P.length →
      Action.new_from_vector P = Except.ok a →
      a.action_type = ActionType.Jump ∧ 0 < a.jump_len) ∧
    (∀ a : Action, a.action_type = ActionType.Move ↔ a.jump_len = 0) := by
  refine ⟨?_, ?_, ?_, action_type_move_iff⟩
  · intro p q a hok hd
    obtain ⟨hl2, hl9, hrange, hca⟩ := new_from_vector_ok_inv [p, q] a hok
    simp only [List.map_cons, List.map_nil] at hca
    rcases hca with ⟨hncl, hdata⟩ | ⟨hcl, _⟩
    · simp only [List.headD_cons, List.getLastD_cons, List.getLastD_nil] at hdata
      have hq0 : sub1 p < 32 := by
        have := hrange (sub1 p) (by simp)
        omega
      have hq1 : sub1 q < 32 := by
        have := hrange (sub1 q) (by simp)
        omega
      obtain ⟨d⟩ := a
      simp only at hdata
      subst hdata
      have hjl : Action.jump_len ⟨sub1 p + 32 * sub1 q⟩ = 0 := by
        have := jump_len_pack (sub1 p) (sub1 q) 0 0 hq0 hq1 (by norm_num)
        simpa using this
      exact ⟨hjl, (action_type_move_iff _).mpr hjl⟩
    · exact absurd hd (by simpa using (cl_two p q).mp hcl)
  · intro p q a hok hd
    obtain ⟨hl2, hl9, hrange, hca⟩ := new_from_vector_ok_inv [p, q] a hok
    simp only [List.map_cons, List.map_nil] at hca
    rcases hca with ⟨hncl, _⟩ | ⟨hcl, C, hC, hdata⟩
    · exact absurd ((cl_two p q).mpr hd) hncl
    · simp only [List.headD_cons, List.getLastD_cons, List.getLastD_nil] at hdata
      have hlen2 : ([p, q] : List Nat).length = 2 := rfl
      rw [hlen2] at hdata
      have hq0 : sub1 p < 32 := by
        have := hrange (sub1 p) (by simp)
        omega
      have hq1 : sub1 q < 32 := by
        have := hrange (sub1 q) (by simp)
        omega
      obtain ⟨d⟩ := a
      simp only at hdata
      subst hdata
      have hjl : Action.jump_len ⟨sub1 p + 32 * sub1 q + 1024 * (2 - 1) + 32768 * C⟩ = 2 - 1 :=
        jump_len_pack (sub1 p) (sub1 q) (2 - 1) C hq0 hq1 (by norm_num)
      constructor
      · have hne : Action.jump_len ⟨sub1 p + 32 * sub1 q + 1024 * (2 - 1) + 32768 * C⟩ ≠ 0 := by
          omega
        rcases h : Action.action_type ⟨sub1 p + 32 * sub1 q + 1024 * (2 - 1) + 32768 * C⟩ with _ | _
        · exact absurd ((action_type_move_iff _).mp h) hne
        · rfl
      · omega
  · intro P a hgt hok
    obtain ⟨hl2, hl9, hrange, hca⟩ := new_from_vector_ok_inv P a hok
    rcases hca with ⟨hncl, _⟩ | ⟨hcl, C, hC, hdata⟩
    · exact absurd (Or.inl (by simpa using hgt)) hncl
    · have hPne : P ≠ [] := by
        intro he
        rw [he] at hl2
        simp at hl2
      have hqne : P.map sub1 ≠ [] := by simpa using hPne
      have hq0 : (P.map sub1).headD 0 < 32 := by
        have := hrange _ (headD_mem hqne)
        omega
      have hq1 : (P.map sub1).getLastD 0 < 32 := by
        have := hrange _ (getLastD_mem hqne)
        omega
      obtain ⟨d⟩ := a
      simp only at hdata
      subst hdata
      have hjl := jump_len_pack ((P.map sub1).headD 0) ((P.map sub1).getLastD 0)
        (P.length - 1) C hq0 hq1 (by omega)
      constructor
      · have hne : Action.jump_len ⟨(P.map sub1).headD 0 + 32 * (P.map sub1).getLastD 0 +
            1024 * (P.length - 1) + 32768 * C⟩ ≠ 0 := by
          omega
        rcases h : Action.action_type ⟨(P.map sub1).headD 0 + 32 * (P.map sub1).getLastD 0 +
            1024 * (P.length - 1) + 32768 * C⟩ with _ | _
        · exact absurd ((action_type_move_iff _).mp h) hne
        · rfl
      · omega

/-- Witness for C2 at the moves 19-24, 1-10, 1-10-17. -/
theorem C2_classification_witness :
    (Action.jump_len ⟨754⟩ = 0 ∧ Action.action_type ⟨754⟩ = ActionType.Move) ∧
    (Action.action_type ⟨99616⟩ = ActionType.Jump ∧ 0 < Action.jump_len ⟨99616⟩) ∧
    (Action.action_type ⟨363008⟩ = ActionType.Jump ∧ 0 < Action.jump_len ⟨363008⟩) ∧
    (Action.action_type ⟨754⟩ = ActionType.Move ↔ Action.jump_len ⟨754⟩ = 0) :=
  ⟨C2_classification.1 19 24 ⟨754⟩ (by decide) (by decide),
   C2_classification.2.1 1 10 ⟨99616⟩ (by decide) (by decide),
   C2_classification.2.2.1 [1, 10, 17] ⟨363008⟩ (by decide) (by decide),
   C2_classification.2.2.2 ⟨754⟩⟩

/-- C3: the claim that `new_from_vector` returns an action or a
recoverable error on every `u8` input vector fails for vectors containing
the position value 0: under the default (debug) overflow-checking profile
the `u8` subtraction `x - 1` panics, modelled by
`convertPositionsChecked` returning `none`; under release wrapping
semantics the same input is instead rejected with a position value error
carrying the wrapped value 255. -/
theorem C3_zero_position_overflow :
    convertPositionsChecked [0, 5] = none ∧
    Action.new_from_vector [0, 5] =
      Except.error (ParseActionError.PositionValueError "255") := by
  decide

theorem move_direction_eq_table (a : Action) :
    a.move_direction =
      if a.action_type = ActionType.Jump then none
      else moveDirTable (decide (a.source / 4 % 2 = 0))
        ((a.destination : Int) - (a.source : Int)) := by
  unfold Action.move_direction moveDirTable
  by_cases h : a.action_type = ActionType.Jump
  · simp [h]
  · simp only [h, if_false]
    by_cases hp : a.source / 4 % 2 = 0
    · simp [hp]
    · simp [hp]

/-- C4: Move geometry.  For every action, `move_direction` is `none` on a
jump, and otherwise looks up the destination-minus-source delta in the
even-row table when the source row (`source / 4`) is even and in the
odd-row table otherwise; every delta outside the tables yields `none`. -/
theorem C4_move_geometry (a : Action) :
    a.move_direction =
      if a.action_type = ActionType.Jump then none
      else moveDirTable (decide (a.source / 4 % 2 = 0))
        ((a.destination : Int) - (a.source : Int)) :=
  move_direction_eq_table a

/-- C6: Out-of-range jump index.  `jump_direction i` is `none` whenever
`i` is at least `jump_len`, and in particular a move action yields `none`
at every index. -/
theorem C6_out_of_range_jump_index :
    (∀ (a : Action) (i : Nat), a.jump_len ≤ i → a.jump_direction i = none) ∧
    (∀ (a : Action) (i : Nat), a.action_type = ActionType.Move →
      a.jump_direction i = none) := by
  constructor
  · intro a i h
    unfold Action.jump_direction
    rw [if_pos h]
  · intro a i h
    have h0 := (action_type_move_iff a).mp h
    unfold Action.jump_direction
    rw [if_pos (by omega)]

/-- Witness for C6 at the jump 1-10-17 (index 2 = its jump length) and
the move 19-24 (index 5). -/
theorem C6_out_of_range_jump_index_witness :
    Action.jump_direction ⟨363008⟩ 2 = none ∧
    Action.jump_direction ⟨754⟩ 5 = none :=
  ⟨C6_out_of_range_jump_index.1 ⟨363008⟩ 2 (by decide),
   C6_out_of_range_jump_index.2 ⟨754⟩ 5 (by decide)⟩

/-- C10: Direction decoding is total.  For every action and index below
the jump length, the extracted two-bit field is below 4, decoding it
produces exactly the stored variant, and the code-to-variant mapping is
the declaration order 0, 1, 2, 3. -/
theorem C10_direction_decode_total (a : Action) (i : Nat) (h : i < a.jump_len) :
    (a.data >>> (i * 2 + 15)) &&& 3 < 4 ∧
    a.jump_direction i = some (decodeDirection ((a.data >>> (i * 2 + 15)) &&& 3)) ∧
    decodeDirection 0 = Direction.UpLeft ∧ decodeDirection 1 = Direction.UpRight ∧
    decodeDirection 2 = Direction.DownLeft ∧ decodeDirection 3 = Direction.DownRight := by
  refine ⟨?_, ?_, rfl, rfl, rfl, rfl⟩
  · rw [and_3_eq]
    omega
  · unfold Action.jump_direction
    rw [if_neg (by omega)]

/-- Witness for C10 at the jump 1-10-17, slot 0. -/
theorem C10_direction_decode_total_witness :
    (Action.data ⟨363008⟩ >>> (0 * 2 + 15)) &&& 3 < 4 ∧
    Action.jump_direction ⟨363008⟩ 0 =
      some (decodeDirection ((Action.data ⟨363008⟩ >>> (0 * 2 + 15)) &&& 3)) ∧
    decodeDirection 0 = Direction.UpLeft ∧ decodeDirection 1 = Direction.UpRight ∧
    decodeDirection 2 = Direction.DownLeft ∧ decodeDirection 3 = Direction.DownRight :=
  C10_direction_decode_total ⟨363008⟩ 0 (by decide)

/-- C5 (amended): for every encoder-produced action of type `Move`,
`move_direction` returns a value exactly when the delta is not
parity-mismatched: an even source row with delta 3 or -5, or an odd
source row with delta -3 or 5, yields no direction; every other
encoder-producible move delta does. -/
theorem C5_move_direction_amended (P : List Nat) (a : Action)
    (hok : Action.new_from_vector P = Except.ok a)
    (hmove : a.action_type = ActionType.Move) :
    a.move_direction.isSome = true ↔
      ¬((a.source / 4 % 2 = 0 ∧
          ((a.destination : Int) - (a.source : Int) = 3 ∨
            (a.destination : Int) - (a.source : Int) = -5)) ∨
        (a.source / 4 % 2 ≠ 0 ∧
          ((a.destination : Int) - (a.source : Int) = -3 ∨
            (a.destination : Int) - (a.source : Int) = 5))) := by
  obtain ⟨hl2, hl9, hrange, hca⟩ := new_from_vector_ok_inv P a hok
  have hPne : P ≠ [] := by
    intro he
    rw [he] at hl2
    simp at hl2
  have hqne : P.map sub1 ≠ [] := by simpa using hPne
  have hq0 : (P.map sub1).headD 0 < 32 := by
    have := hrange _ (headD_mem hqne)
    omega
  have hq1 : (P.map sub1).getLastD 0 < 32 := by
    have := hrange _ (getLastD_mem hqne)
    omega
  rcases hca with ⟨hncl, hdata⟩ | ⟨hcl, C, hC, hdata⟩
  · -- Move layout
    have hd : ¬(2 < P.length) ∧
        ¬(max ((P.map sub1).headD 0) ((P.map sub1).getLastD 0) -
            min ((P.map sub1).headD 0) ((P.map sub1).getLastD 0) ≠ 3 ∧
          max ((P.map sub1).headD 0) ((P.map sub1).getLastD 0) -
            min ((P.map sub1).headD 0) ((P.map sub1).getLastD 0) ≠ 4 ∧
          max ((P.map sub1).headD 0) ((P.map sub1).getLastD 0) -
            min ((P.map sub1).headD 0) ((P.map sub1).getLastD 0) ≠ 5) := by
      constructor
      · intro hgt
        exact hncl (Or.inl (by simpa using hgt))
      · intro hand
        exact hncl (Or.inr (by simpa using hand))
    obtain ⟨d⟩ := a
    simp only at hdata
    subst hdata
    have hsrc := source_pack ((P.map sub1).headD 0) ((P.map sub1).getLastD 0) 0 0 hq0
    have hdst := destination_pack ((P.map sub1).headD 0) ((P.map sub1).getLastD 0) 0 0 hq0 hq1
    simp only [Nat.mul_zero, Nat.add_zero] at hsrc hdst
    rw [move_direction_eq_table]
    rw [if_neg (by rw [hmove]; simp)]
    rw [hsrc, hdst]
    -- now pure arithmetic case analysis
    rcases hd with ⟨hle2, hdval⟩
    set q0 := (P.map sub1).headD 0 with hq0def
    set q1 := (P.map sub1).getLastD 0 with hq1def
    have hcases : (q1 : Int) - (q0 : Int) = 3 ∨ (q1 : Int) - (q0 : Int) = -3 ∨
        (q1 : Int) - (q0 : Int) = 4 ∨ (q1 : Int) - (q0 : Int) = -4 ∨
        (q1 : Int) - (q0 : Int) = 5 ∨ (q1 : Int) - (q0 : Int) = -5 := by
      omega
    by_cases hp : q0 / 4 % 2 = 0 <;>
      rcases hcases with h | h | h | h | h | h <;>
        simp [moveDirTable, hp, h]
  · -- Jump layout contradicts hmove
    exfalso
    obtain ⟨d⟩ := a
    simp only at hdata
    subst hdata
    have hjl := jump_len_pack ((P.map sub1).headD 0) ((P.map sub1).getLastD 0)
      (P.length - 1) C hq0 hq1 (by omega)
    have h0 := (action_type_move_iff _).mp hmove
    omega

/-- C5 counterexample: the encoder accepts the sequence 1-4 as a `Move`
(0-based endpoints 0 and 3, distance 3), yet `move_direction` returns
`none`, because the even-row table has no entry for delta +3; so the
`none` branch is reachable for encoder-produced moves. -/
theorem C5_counterexample :
    Action.new_from_vector [1, 4] = Except.ok ⟨96⟩ ∧
    Action.action_type ⟨96⟩ = ActionType.Move ∧
    Action.move_direction ⟨96⟩ = none := by
  decide

/-- Witness for the amended C5 at the move 19-24. -/
theorem C5_witness :
    (Action.move_direction ⟨754⟩).isSome = true ↔
      ¬((Action.source ⟨754⟩ / 4 % 2 = 0 ∧
          ((Action.destination ⟨754⟩ : Int) - (Action.source ⟨754⟩ : Int) = 3 ∨
            (Action.destination ⟨754⟩ : Int) - (Action.source ⟨754⟩ : Int) = -5)) ∨
        (Action.source ⟨754⟩ / 4 % 2 ≠ 0 ∧
          ((Action.destination ⟨754⟩ : Int) - (Action.source ⟨754⟩ : Int) = -3 ∨
            (Action.destination ⟨754⟩ : Int) - (Action.source ⟨754⟩ : Int) = 5))) :=
  C5_move_direction_amended [19, 24] ⟨754⟩ (by decide) (by decide)

/-- C7: Range boundary.  Position 32 is accepted when all other
constraints hold (it converts to square 31, `sub1 32 = 31`), and any
sequence whose first out-of-range converted index is `pos` is rejected
with a position value error reporting that index, which exceeds 31. -/
theorem C7_range_boundary :
    (∀ P : List Nat, 32 ∈ P → 2 ≤ P.length → P.length ≤ 9 →
      (∀ x ∈ P, 1 ≤ x ∧ x ≤ 32) →
      (classifiesAsJump (P.map sub1) → ∀ i, i < P.length - 1 →
        (jumpDirOfDiff (((P.map sub1).getD (i + 1) 0 : Int) -
          ((P.map sub1).getD i 0 : Int))).isSome = true) →
      ∃ a, Action.new_from_vector P = Except.ok a) ∧
    sub1 32 = 31 ∧
    (∀ (P : List Nat) (pos : Nat),
      (P.map sub1).find? (fun x => 31 < x) = some pos →
      Action.new_from_vector P =
        Except.error (ParseActionError.PositionValueError (toString pos)) ∧ 31 < pos) := by
  refine ⟨?_, rfl, ?_⟩
  · intro P h32 hlen2 hlen9 hval hjump
    obtain ⟨a, h1, _⟩ := new_from_vector_ok_char P hlen2 hlen9 hval hjump
    exact ⟨a, h1⟩
  · intro P pos hf
    refine ⟨nfv_find_some P pos hf, ?_⟩
    have := List.find?_some hf
    simpa using this

/-- Witness for C7 at the accepted move 32-27 and the rejected 33-5. -/
theorem C7_range_boundary_witness :
    (∃ a, Action.new_from_vector [32, 27] = Except.ok a) ∧
    sub1 32 = 31 ∧
    (Action.new_from_vector [33, 5] =
      Except.error (ParseActionError.PositionValueError (toString 32)) ∧ 31 < 32) :=
  ⟨C7_range_boundary.1 [32, 27] (by decide) (by decide) (by decide) (by decide) (by decide),
   C7_range_boundary.2.1,
   C7_range_boundary.2.2 [33, 5] 32 (by decide)⟩

/-- C8: Length boundary.  For in-range values, fewer than 2 or more than
9 positions are rejected with a move quantity error carrying the count;
exactly 2 and exactly 9 positions are accepted when the remaining
constraints hold. -/
theorem C8_length_boundary :
    (∀ P : List Nat, (∀ x ∈ P, sub1 x ≤ 31) →
      P.length < 2 ∨ 9 < P.length →
      Action.new_from_vector P =
        Except.error (ParseActionError.MoveQuantityError P.length)) ∧
    (∀ P : List Nat, P.length = 2 ∨ P.length = 9 →
      (∀ x ∈ P, 1 ≤ x ∧ x ≤ 32) →
      (classifiesAsJump (P.map sub1) → ∀ i, i < P.length - 1 →
        (jumpDirOfDiff (((P.map sub1).getD (i + 1) 0 : Int) -
          ((P.map sub1).getD i 0 : Int))).isSome = true) →
      ∃ a, Action.new_from_vector P = Except.ok a) := by
  constructor
  · intro P hval hlen
    have hf : (P.map sub1).find? (fun x => 31 < x) = none := by
      rw [List.find?_eq_none]
      intro x hx
      obtain ⟨y, hy, rfl⟩ := List.mem_map.mp hx
      simp only [decide_eq_true_eq]
      exact Nat.not_lt.mpr (hval y hy)
    exact nfv_len_err P hf hlen
  · intro P hlen hval hjump
    obtain ⟨a, h1, _⟩ := new_from_vector_ok_char P (by omega) (by omega) hval hjump
    exact ⟨a, h1⟩

/-- Witness for C8: 1 and 10 elements rejected, 2 and 9 accepted. -/
theorem C8_length_boundary_witness :
    Action.new_from_vector [5] =
      Except.error (ParseActionError.MoveQuantityError ([5] : List Nat).length) ∧
    Action.new_from_vector [1, 2, 3, 4, 5, 6, 7, 8, 9, 10] =
      Except.error (ParseActionError.MoveQuantityError
        ([1, 2, 3, 4, 5, 6, 7, 8, 9, 10] : List Nat).length) ∧
    (∃ a, Action.new_from_vector [19, 24] = Except.ok a) ∧
    (∃ a, Action.new_from_vector [1, 10, 19, 28, 19, 28, 19, 28, 19] = Except.ok a) :=
  ⟨C8_length_boundary.1 [5] (by decide) (by decide),
   C8_length_boundary.1 [1, 2, 3, 4, 5, 6, 7, 8, 9, 10] (by decide) (by decide),
   C8_length_boundary.2 [19, 24] (by decide) (by decide) (by decide),
   C8_length_boundary.2 [1, 10, 19, 28, 19, 28, 19, 28, 19] (by decide) (by decide) (by decide)⟩

theorem collectPositions_ok (ts : List String)
    (h : ∀ t ∈ ts, (parseU8 t).isSome = true) :
    collectPositions ts = Except.ok (ts.map (fun t => (parseU8 t).getD 0)) := by
  induction ts with
  | nil => rfl
  | cons t ts ih =>
    have ht := h t (by simp)
    obtain ⟨v, hv⟩ := Option.isSome_iff_exists.mp ht
    simp only [collectPositions, hv, ih (fun x hx => h x (by simp [hx])), List.map_cons]
    simp [hv]

theorem collectPositions_err (ts : List String) (t : String)
    (h : ts.find? (fun x => (parseU8 x).isNone) = some t) :
    collectPositions ts = Except.error (ParseActionError.PositionValueError t) := by
  induction ts with
  | nil => simp at h
  | cons t0 ts ih =>
    by_cases h0 : (parseU8 t0).isNone = true
    · rw [List.find?_cons_of_pos _ (by simpa using h0)] at h
      have ht0 : parseU8 t0 = none := Option.isNone_iff_eq_none.mp h0
      obtain rfl : t0 = t := by simpa using h
      simp [collectPositions, ht0]
    · rw [List.find?_cons_of_neg _ (by simpa using h0)] at h
      have ht0 : ∃ v, parseU8 t0 = some v := by
        rcases hv : parseU8 t0 with _ | v
        · rw [hv] at h0
          simp at h0
        · exact ⟨v, rfl⟩
      obtain ⟨v, hv⟩ := ht0
      simp [collectPositions, hv, ih h]

/-- C9: Parser and encoder agree.  When every hyphen-separated token of
the movetext parses as a `u8`, `new_from_movetext` returns exactly
`new_from_vector` of the parsed sequence; when some token fails to
parse, it returns a position value error carrying the first failing
token verbatim. -/
theorem C9_parser_encoder_agreement :
    (∀ s : String, (∀ t ∈ splitDash s.data [], (parseU8 t).isSome = true) →
      Action.new_from_movetext s =
        Action.new_from_vector
          ((splitDash s.data []).map (fun t => (parseU8 t).getD 0))) ∧
    (∀ (s tok : String),
      (splitDash s.data []).find? (fun x => (parseU8 x).isNone) = some tok →
      Action.new_from_movetext s =
        Except.error (ParseActionError.PositionValueError tok)) := by
  constructor
  · intro s h
    unfold Action.new_from_movetext
    rw [collectPositions_ok _ h]
  · intro s tok h
    unfold Action.new_from_movetext
    rw [collectPositions_err _ tok h]

/-- Witness for C9 at the movetexts 19-24 and 19-2x. -/
theorem C9_parser_encoder_agreement_witness :
    Action.new_from_movetext "19-24" =
      Action.new_from_vector
        ((splitDash "19-24".data []).map (fun t => (parseU8 t).getD 0)) ∧
    Action.new_from_movetext "19-2x" =
      Except.error (ParseActionError.PositionValueError "2x") :=
  ⟨C9_parser_encoder_agreement.1 "19-24" (by decide),
   C9_parser_encoder_agreement.2 "19-2x" "2x" (by decide)⟩

end Muskox
